import Mathlib

/-!
# Verification of `rlp-iter` (Resolving Lattice Point Iterator)

Shallow embedding of `src/lib.rs`: a pull-based iterator that emits a
space-filling permutation of the integers of a `usize` range.

Modelling conventions:

* `usize` values are `Nat`; where the source performs `usize` subtraction we
  model the release-build wrapping semantics explicitly (`wrapSub`), since the
  range adapters subtract without checking (`end - start - 1`).
* The bitset `BitVec::from_elem(range + 1, false)` is modelled as a total
  function `Nat → Bool` (all `false` initially); `set` is `Function.update`.
  The in-bounds safety of `tested.get(val).unwrap()` is recovered as the
  theorem that every candidate offset computed in the `Lattice` state is
  `≤ range` (the bitset has `range + 1` bits).
* The two floating point computations are modelled by their exact real-number
  values, which agree with `f64` arithmetic for all ranges of realizable size:
  - `(i as f64).log2().round() as usize` is `ilog2`, the nearest integer to
    log₂ i (and `0` for `i = 0`, the saturating cast of `-inf`);
  - `(range as f64 * (numerator as f64 / denominator as f64)).round()` is
    `roundMulDiv`, the rational `range * numerator / denominator` rounded to
    the nearest integer, halves away from zero (exact in `f64` whenever
    `range * numerator < 2^53`; the denominator is a power of two).
* The two `while` loops inside `next` are written with an explicit fuel
  argument so that they compute by kernel reduction; the fuel passed at each
  call site (`2 ^ (final_pow + 1)` lattice fractions, `range + 2` linear
  steps) is proved sufficient: whenever the fuel-0 branch is reached under the
  reachable-state invariant, it returns exactly what the loop exit returns.
-/

/-- The number of values of `usize` (64-bit): 2^64. -/
def USIZE : Nat := 18446744073709551616

/-- Wrapping (release-build) `usize` subtraction `a - b`, for `a b < USIZE`. -/
def wrapSub (a b : Nat) : Nat := (a + USIZE - b) % USIZE

/-- Fuelled floor of log₂ (fuel `n` suffices for input `n`). -/
def log2Aux : Nat → Nat → Nat
  | 0, _ => 0
  | fuel + 1, n => if 2 ≤ n then log2Aux fuel (n / 2) + 1 else 0

/-- Floor of log₂ `n` (0 for `n = 0`). -/
def floorLog2 (n : Nat) : Nat := log2Aux n n

/-- Model of `fn ilog2(i: usize) -> usize { (i as f64).log2().round() as usize }`:
the nearest integer to log₂ i. `round(log2 i) = k` iff `i² < 2^(2k+1)` and
`2^(2k-1) ≤ i²` (exact halves are impossible since `2^(2k±1)` is not a perfect
square). For `i = 0`, `log2` is `-inf` and the saturating cast yields `0`. -/
def ilog2 (i : Nat) : Nat :=
  if i = 0 then 0
  else
    let k := floorLog2 i
    if i * i < 2 ^ (2 * k + 1) then k else k + 1

/-- Model of `(r as f64 * (n as f64 / d as f64)).round() as usize`: the rational
`r * n / d` rounded to the nearest integer, halves rounded up (`f64::round`
rounds halves away from zero; all quantities are non-negative). -/
def roundMulDiv (r n d : Nat) : Nat := (2 * r * n + d) / (2 * d)

/-- The four phases of the iterator (`enum State` in the source). -/
inductive State where
  | Start
  | End
  | Lattice
  | Finished

/-- The iterator state (`pub struct RlpIter` in the source). `tested` models
the bitset of `range + 1` bits. -/
structure RlpIter where
  tested : Nat → Bool
  shift : Nat
  range : Nat
  numerator : Nat
  pow : Nat
  final_pow : Nat
  state : State

/-- The `// Increment numerator / denominator` step of the lattice loop. -/
def latticeAdvance (s : RlpIter) (denominator : Nat) : RlpIter :=
  if s.numerator = denominator - 1 then
    { s with numerator := 1, pow := s.pow + 1 }
  else
    { s with numerator := s.numerator + 1 }

/-- The `while self.pow <= self.final_pow` loop of `State::Lattice`: keep
trying lattice fractions until an untested candidate is found (return it and
stop) or the fraction sweep is exhausted. Fuel only forces termination; the
caller's fuel is sufficient (see `latticeLoop_spec`). -/
def latticeLoop : Nat → RlpIter → Option Nat × RlpIter
  | 0, s => (none, s)
  | fuel + 1, s =>
    if s.pow ≤ s.final_pow then
      let denominator := 2 ^ s.pow
      let val := roundMulDiv s.range s.numerator denominator
      if s.tested val then
        latticeLoop fuel (latticeAdvance s denominator)
      else
        (some val,
         latticeAdvance { s with tested := Function.update s.tested val true }
           denominator)
    else (none, s)

/-- The `// Fill gaps with simple iteration` loop
(`while self.numerator <= self.range`): linear scan for the next untested
offset. Fuel only forces termination; `range + 2 - numerator` steps always
suffice (see `fillLoop_spec`). -/
def fillLoop : Nat → RlpIter → Option Nat × RlpIter
  | 0, s => (none, s)
  | fuel + 1, s =>
    if s.numerator ≤ s.range then
      if s.tested s.numerator then
        fillLoop fuel { s with numerator := s.numerator + 1 }
      else
        (some s.numerator,
         { s with tested := Function.update s.tested s.numerator true,
                  numerator := s.numerator + 1 })
    else (none, s)

/-- `impl Iterator for RlpIter { fn next(&mut self) -> Option<usize> }`,
with the mutated receiver made explicit: returns the emitted item (already
translated by `shift`) and the successor state. -/
def RlpIter.next (s : RlpIter) : Option Nat × RlpIter :=
  match s.state with
  | State.Start =>
      (some (0 + s.shift),
       { s with tested := Function.update s.tested 0 true, state := State.End })
  | State.End =>
      if s.range = 0 then
        (none, { s with state := State.Finished })
      else
        (some (s.range + s.shift),
         { s with tested := Function.update s.tested s.range true,
                  state := State.Lattice })
  | State.Lattice =>
      match latticeLoop (2 ^ (s.final_pow + 1)) s with
      | (some v, s1) => (some (v + s.shift), s1)
      | (none, s1) =>
          match fillLoop (s1.range + 2) s1 with
          | (o, s2) =>
              if s2.range < s2.numerator then
                (Option.map (fun v => v + s.shift) o,
                 { s2 with state := State.Finished })
              else
                (Option.map (fun v => v + s.shift) o, s2)
  | State.Finished => (none, s)

/-- `Range<usize>` (`start..end`); the `end` field is named `stop` because
`end` is a Lean keyword. -/
structure Range where
  start : Nat
  stop : Nat

/-- `RangeInclusive<usize>` (`start..=end`). -/
structure RangeInclusive where
  start : Nat
  stop : Nat

/-- `impl RlpIterator for Range<usize>`: `range = self.end - self.start - 1`
(wrapping `usize` subtraction, unchecked in the source). -/
def Range.rlp_iter (r : Range) : RlpIter :=
  let range := wrapSub (wrapSub r.stop r.start) 1
  { tested := fun _ => false
    shift := r.start
    range := range
    numerator := 1
    pow := 1
    final_pow := ilog2 range
    state := State.Start }

/-- `impl RlpIterator for RangeInclusive<usize>`: `range = end - start`
(wrapping `usize` subtraction, unchecked in the source). -/
def RangeInclusive.rlp_iter (r : RangeInclusive) : RlpIter :=
  let range := wrapSub r.stop r.start
  { tested := fun _ => false
    shift := r.start
    range := range
    numerator := 1
    pow := 1
    final_pow := ilog2 range
    state := State.Start }

/-- Drive the iterator, collecting emitted values until it returns `none`
(or fuel runs out; `collect` passes sufficient fuel). -/
def runFrom : Nat → RlpIter → List Nat
  | 0, _ => []
  | fuel + 1, s =>
    match s.next with
    | (none, _) => []
    | (some v, s') => v :: runFrom fuel s'

/-- A full run of the iterator (`Iterator::collect`): at most `range + 1`
values are emitted, so `range + 2` pulls always reach the end. -/
def RlpIter.collect (s : RlpIter) : List Nat := runFrom (s.range + 2) s

/-- The state after `k` pulls. -/
def RlpIter.iterState (s : RlpIter) : Nat → RlpIter
  | 0 => s
  | k + 1 => ((s.iterState k).next).2

/-- The result of the `(k+1)`-th pull. -/
def RlpIter.nthOut (s : RlpIter) (k : Nat) : Option Nat := ((s.iterState k).next).1

/-- The list of candidate offsets `val` examined by one execution of the
`State::Lattice` fraction loop (mirror of `latticeLoop` that records every
`val` on which `self.tested.get(val).unwrap()` is evaluated). -/
def latticeCandidates : Nat → RlpIter → List Nat
  | 0, _ => []
  | fuel + 1, s =>
    if s.pow ≤ s.final_pow then
      let denominator := 2 ^ s.pow
      let val := roundMulDiv s.range s.numerator denominator
      if s.tested val then
        val :: latticeCandidates fuel (latticeAdvance s denominator)
      else [val]
    else []

/-- States reachable by `next` from a validly constructed iterator
(non-empty range, bounds representable in `usize`). -/
inductive Reach : RlpIter → Prop where
  | base_range (r : Range) (hv : r.start < r.stop) (hb : r.stop < USIZE) :
      Reach r.rlp_iter
  | base_inclusive (r : RangeInclusive) (hv : r.start ≤ r.stop)
      (hb : r.stop < USIZE) : Reach r.rlp_iter
  | step (s : RlpIter) (h : Reach s) : Reach (s.next).2

/-! ## Basic lemmas -/

theorem wrapSub_eq_sub {a b : Nat} (hba : b ≤ a) (ha : a < USIZE) :
    wrapSub a b = a - b := by
  unfold wrapSub USIZE at *
  omega

theorem wrapSub_self (a : Nat) : wrapSub a a = 0 := by
  unfold wrapSub USIZE
  omega

theorem wrapSub_add_left (a k : Nat) (hk : k < USIZE) : wrapSub (a + k) a = k := by
  unfold wrapSub USIZE at *
  omega

theorem roundMulDiv_le {r n d : Nat} (hn : n + 1 ≤ d) : roundMulDiv r n d ≤ r := by
  unfold roundMulDiv
  have h2 : 2 * r * n + d < (r + 1) * (2 * d) := by nlinarith
  have h3 := (Nat.div_lt_iff_lt_mul (show 0 < 2 * d by omega)).mpr h2
  omega

theorem update_true_of {f : Nat → Bool} {a x : Nat} (h : f x = true) :
    Function.update f a true x = true := by
  rcases eq_or_ne x a with rfl | hx
  · simp
  · rw [Function.update_apply, if_neg hx]
    exact h

@[simp] theorem latticeAdvance_tested (s : RlpIter) (d : Nat) :
    (latticeAdvance s d).tested = s.tested := by
  unfold latticeAdvance
  split <;> rfl

@[simp] theorem latticeAdvance_range (s : RlpIter) (d : Nat) :
    (latticeAdvance s d).range = s.range := by
  unfold latticeAdvance
  split <;> rfl

@[simp] theorem latticeAdvance_shift (s : RlpIter) (d : Nat) :
    (latticeAdvance s d).shift = s.shift := by
  unfold latticeAdvance
  split <;> rfl

@[simp] theorem latticeAdvance_final_pow (s : RlpIter) (d : Nat) :
    (latticeAdvance s d).final_pow = s.final_pow := by
  unfold latticeAdvance
  split <;> rfl

@[simp] theorem latticeAdvance_state (s : RlpIter) (d : Nat) :
    (latticeAdvance s d).state = s.state := by
  unfold latticeAdvance
  split <;> rfl

/-! ## The reachable-state invariant -/

/-- Invariant of the `Lattice` phase: offset 0 is already emitted; the fraction
cursor `numerator / 2^pow` is within the sweep (`numerator ≤ 2^pow - 1`) while
`pow ≤ final_pow`, and once the sweep is exhausted (`final_pow < pow`) the
`numerator` field is the linear gap-filling cursor and every offset below it is
already emitted. -/
def LatticeInv (s : RlpIter) : Prop :=
  s.tested 0 = true ∧ 1 ≤ s.numerator ∧ s.pow ≤ s.final_pow + 1 ∧
  (s.pow ≤ s.final_pow → s.numerator ≤ 2 ^ s.pow - 1) ∧
  (s.final_pow < s.pow → ∀ i, i < s.numerator → s.tested i = true)

/-- State-machine invariant, preserved by `RlpIter.next` and established by
both range adapters. -/
def RlpInv (s : RlpIter) : Prop :=
  match s.state with
  | State.Start => (∀ i, s.tested i = false) ∧ s.numerator = 1 ∧ s.pow = 1
  | State.End => (∀ i, s.tested i = true ↔ i = 0) ∧ s.numerator = 1 ∧ s.pow = 1
  | State.Lattice => LatticeInv s
  | State.Finished => ∀ i, i ≤ s.range → s.tested i = true

/-- Advancing the fraction cursor preserves the loop invariant and increases
the sweep index `2 ^ pow + numerator`. -/
theorem latticeAdvance_step (s : RlpIter) (hpf : s.pow ≤ s.final_pow)
    (hbound : s.numerator ≤ 2 ^ s.pow - 1) (h0 : s.tested 0 = true) :
    1 ≤ (latticeAdvance s (2 ^ s.pow)).numerator ∧
    (latticeAdvance s (2 ^ s.pow)).pow ≤ s.final_pow + 1 ∧
    ((latticeAdvance s (2 ^ s.pow)).pow ≤ s.final_pow →
      (latticeAdvance s (2 ^ s.pow)).numerator ≤
        2 ^ (latticeAdvance s (2 ^ s.pow)).pow - 1) ∧
    (s.final_pow < (latticeAdvance s (2 ^ s.pow)).pow →
      ∀ i, i < (latticeAdvance s (2 ^ s.pow)).numerator → s.tested i = true) ∧
    2 ^ s.pow + s.numerator + 1 ≤
      2 ^ (latticeAdvance s (2 ^ s.pow)).pow +
        (latticeAdvance s (2 ^ s.pow)).numerator := by
  have hp1 : (1 : Nat) ≤ 2 ^ s.pow := Nat.one_le_two_pow
  unfold latticeAdvance
  by_cases hnum : s.numerator = 2 ^ s.pow - 1
  · simp only [hnum, if_true]
    have hp2 : (2 : Nat) ≤ 2 ^ (s.pow + 1) := by
      calc (2 : Nat) = 2 ^ 1 := by norm_num
      _ ≤ 2 ^ (s.pow + 1) := Nat.pow_le_pow_right (by omega) (by omega)
    refine ⟨by omega, by omega, fun _ => by omega, fun _ i hi => ?_, ?_⟩
    · interval_cases i
      exact h0
    · have : 2 ^ (s.pow + 1) = 2 * 2 ^ s.pow := by
        rw [Nat.pow_succ]; ring
      omega
  · simp only [hnum, if_false]
    refine ⟨by omega, by omega, fun _ => by omega, fun hc i hi => ?_, by omega⟩
    omega

/-- One-step unfolding of `latticeLoop` (the `let`s of the source inlined). -/
theorem latticeLoop_succ (fuel : Nat) (s : RlpIter) :
    latticeLoop (fuel + 1) s =
      if s.pow ≤ s.final_pow then
        if s.tested (roundMulDiv s.range s.numerator (2 ^ s.pow)) then
          latticeLoop fuel (latticeAdvance s (2 ^ s.pow))
        else
          (some (roundMulDiv s.range s.numerator (2 ^ s.pow)),
           latticeAdvance
             { s with tested := Function.update s.tested (roundMulDiv s.range s.numerator (2 ^ s.pow)) true }
             (2 ^ s.pow))
      else (none, s) := rfl

/-- One-step unfolding of `fillLoop`. -/
theorem fillLoop_succ (fuel : Nat) (s : RlpIter) :
    fillLoop (fuel + 1) s =
      if s.numerator ≤ s.range then
        if s.tested s.numerator then
          fillLoop fuel { s with numerator := s.numerator + 1 }
        else
          (some s.numerator,
           { s with tested := Function.update s.tested s.numerator true,
                    numerator := s.numerator + 1 })
      else (none, s) := rfl

/-- Full specification of the `State::Lattice` fraction loop. Fields other
than `tested`, `numerator`, `pow` are preserved; the `Lattice` invariant is
maintained; a `some v` result is a fresh in-bounds offset that gets marked; a
`none` result leaves the bitset unchanged and means the fraction sweep is
exhausted. The fuel hypothesis is satisfied by the call-site fuel
`2 ^ (final_pow + 1)`: whenever fuel would run out the loop has already
exhausted the sweep, so the fuel-0 branch coincides with the loop exit. -/
theorem latticeLoop_spec (fuel : Nat) :
    ∀ s : RlpIter, s.tested 0 = true → 1 ≤ s.numerator →
    s.pow ≤ s.final_pow + 1 →
    (s.pow ≤ s.final_pow → s.numerator ≤ 2 ^ s.pow - 1) →
    (s.final_pow < s.pow → ∀ i, i < s.numerator → s.tested i = true) →
    2 ^ (s.final_pow + 1) ≤ fuel + (2 ^ s.pow + s.numerator) →
    ∀ o s', latticeLoop fuel s = (o, s') →
      s'.range = s.range ∧ s'.shift = s.shift ∧ s'.final_pow = s.final_pow ∧
      s'.state = s.state ∧ LatticeInv s' ∧
      (∀ v, o = some v → v ≤ s.range ∧ s.tested v = false ∧
        s'.tested = Function.update s.tested v true) ∧
      (o = none → s'.tested = s.tested ∧ s.final_pow < s'.pow) := by
  induction fuel with
  | zero =>
    intro s h0 h1 hple hbound hpre hfuel o s' heq
    have hfp : s.final_pow < s.pow := by
      by_contra hc
      push_neg at hc
      have hb := hbound hc
      have h2 : 2 ^ s.pow ≤ 2 ^ s.final_pow := Nat.pow_le_pow_right (by omega) hc
      have h3 : 2 ^ (s.final_pow + 1) = 2 * 2 ^ s.final_pow := by
        rw [Nat.pow_succ]; ring
      have h4 : (1 : Nat) ≤ 2 ^ s.pow := Nat.one_le_two_pow
      omega
    simp only [latticeLoop] at heq
    injection heq with ho hs
    subst ho
    subst hs
    refine ⟨rfl, rfl, rfl, rfl, ⟨h0, h1, hple, hbound, hpre⟩, ?_,
      fun _ => ⟨rfl, hfp⟩⟩
    intro v hv
    cases hv
  | succ fuel ih =>
    intro s h0 h1 hple hbound hpre hfuel o s' heq
    rw [latticeLoop_succ] at heq
    by_cases hpf : s.pow ≤ s.final_pow
    · rw [if_pos hpf] at heq
      by_cases htv : s.tested (roundMulDiv s.range s.numerator (2 ^ s.pow)) = true
      · rw [if_pos htv] at heq
        obtain ⟨a1, a2, a3, a4, a5⟩ :=
          latticeAdvance_step s hpf (hbound hpf) h0
        obtain ⟨r1, r2, r3, r4, r5, r6, r7⟩ :=
          ih (latticeAdvance s (2 ^ s.pow))
            (by rw [latticeAdvance_tested]; exact h0) a1
            (by rw [latticeAdvance_final_pow]; exact a2)
            (by rw [latticeAdvance_final_pow]; exact a3)
            (by rw [latticeAdvance_final_pow, latticeAdvance_tested]; exact a4)
            (by rw [latticeAdvance_final_pow]; omega)
            o s' heq
        rw [latticeAdvance_range] at r1
        rw [latticeAdvance_shift] at r2
        rw [latticeAdvance_final_pow] at r3
        rw [latticeAdvance_state] at r4
        rw [latticeAdvance_range, latticeAdvance_tested] at r6
        rw [latticeAdvance_tested, latticeAdvance_final_pow] at r7
        exact ⟨r1, r2, r3, r4, r5, r6, r7⟩
      · rw [if_neg htv] at heq
        injection heq with ho hs
        subst ho
        subst hs
        have hd1 : (1 : Nat) ≤ 2 ^ s.pow := Nat.one_le_two_pow
        have hvle : roundMulDiv s.range s.numerator (2 ^ s.pow) ≤ s.range := by
          refine roundMulDiv_le ?_
          have := hbound hpf
          omega
        obtain ⟨a1, a2, a3, a4, a5⟩ :=
          latticeAdvance_step
            { s with tested := Function.update s.tested (roundMulDiv s.range s.numerator (2 ^ s.pow)) true }
            hpf (hbound hpf) (update_true_of h0)
        refine ⟨by simp, by simp, by simp, by simp,
          ⟨?_, a1, by simpa using a2, by simpa using a3, by simpa using a4⟩,
          ?_, ?_⟩
        · rw [latticeAdvance_tested]
          exact update_true_of h0
        · intro v hv
          injection hv with hv
          subst hv
          refine ⟨hvle, by simpa using htv, by simp⟩
        · intro hv
          cases hv
    · rw [if_neg hpf] at heq
      injection heq with ho hs
      subst ho
      subst hs
      refine ⟨rfl, rfl, rfl, rfl, ⟨h0, h1, hple, hbound, hpre⟩, ?_,
        fun _ => ⟨rfl, not_le.mp hpf⟩⟩
      intro v hv
      cases hv

/-- Full specification of the linear gap-filling loop: fields other than
`tested` and `numerator` are untouched; the cursor only moves forward and
every offset below it stays marked; a `some v` result is a fresh in-bounds
offset that gets marked; a `none` result means the cursor ran past `range`
with the bitset unchanged. Fuel `range + 2 - numerator` always suffices. -/
theorem fillLoop_spec (fuel : Nat) :
    ∀ s : RlpIter, (∀ i, i < s.numerator → s.tested i = true) →
    s.range + 2 ≤ fuel + s.numerator →
    ∀ o s', fillLoop fuel s = (o, s') →
      s'.range = s.range ∧ s'.shift = s.shift ∧ s'.pow = s.pow ∧
      s'.final_pow = s.final_pow ∧ s'.state = s.state ∧
      s.numerator ≤ s'.numerator ∧
      (∀ i, i < s'.numerator → s'.tested i = true) ∧
      (∀ v, o = some v → v ≤ s.range ∧ s.tested v = false ∧
        s'.tested = Function.update s.tested v true) ∧
      (o = none → s'.tested = s.tested ∧ s.range < s'.numerator) := by
  induction fuel with
  | zero =>
    intro s hpre hfuel o s' heq
    simp only [fillLoop] at heq
    injection heq with ho hs
    subst ho
    subst hs
    refine ⟨rfl, rfl, rfl, rfl, rfl, le_refl _, hpre, ?_,
      fun _ => ⟨rfl, by omega⟩⟩
    intro v hv
    cases hv
  | succ fuel ih =>
    intro s hpre hfuel o s' heq
    rw [fillLoop_succ] at heq
    by_cases hlt : s.numerator ≤ s.range
    · rw [if_pos hlt] at heq
      by_cases htv : s.tested s.numerator = true
      · rw [if_pos htv] at heq
        obtain ⟨r1, r2, r3, r4, r5, r6, r7, r8, r9⟩ :=
          ih { s with numerator := s.numerator + 1 }
            (by
              intro i hi
              rcases Nat.lt_succ_iff_lt_or_eq.mp hi with hi2 | hi2
              · exact hpre i hi2
              · rw [hi2]; exact htv)
            (by show s.range + 2 ≤ fuel + (s.numerator + 1); omega)
            o s' heq
        refine ⟨r1, r2, r3, r4, r5,
          Nat.le_trans (Nat.le_succ s.numerator) r6, r7, r8,
          fun hv => ⟨(r9 hv).1, ?_⟩⟩
        exact Nat.lt_of_le_of_lt (Nat.le_refl s.range) (r9 hv).2
      · rw [if_neg htv] at heq
        injection heq with ho hs
        subst ho
        subst hs
        refine ⟨rfl, rfl, rfl, rfl, rfl, Nat.le_succ s.numerator, ?_, ?_, ?_⟩
        · intro i hi
          rcases Nat.lt_succ_iff_lt_or_eq.mp hi with hi2 | hi2
          · exact update_true_of (hpre i hi2)
          · rw [hi2]; exact Function.update_same _ _ _
        · intro v hv
          injection hv with hv
          subst hv
          exact ⟨hlt, by simpa using htv, rfl⟩
        · intro hv
          cases hv
    · rw [if_neg hlt] at heq
      injection heq with ho hs
      subst ho
      subst hs
      refine ⟨rfl, rfl, rfl, rfl, rfl, le_refl _, hpre, ?_,
        fun _ => ⟨rfl, by omega⟩⟩
      intro v hv
      cases hv

/-- One pull preserves the invariant; an emitted value is `u + shift` for a
fresh in-bounds offset `u` that gets marked (and nothing else changes in the
bitset); `none` is only returned when every offset of `0..=range` is already
marked. -/
theorem next_spec (s : RlpIter) (h : RlpInv s) :
    RlpInv (s.next).2 ∧
    (∀ v s', s.next = (some v, s') →
      s'.range = s.range ∧ s'.shift = s.shift ∧
      ∃ u, u ≤ s.range ∧ s.tested u = false ∧ v = u + s.shift ∧
        s'.tested = Function.update s.tested u true) ∧
    (∀ s', s.next = (none, s') → ∀ i, i ≤ s.range → s.tested i = true) := by
  cases hst : s.state with
  | Start =>
    simp only [RlpInv, hst] at h
    obtain ⟨hall, hnum, hpow⟩ := h
    have hn : s.next = (some (0 + s.shift),
        { s with tested := Function.update s.tested 0 true,
                 state := State.End }) := by
      simp only [RlpIter.next, hst]
    refine ⟨?_, ?_, ?_⟩
    · rw [hn]
      simp only [RlpInv]
      refine ⟨?_, hnum, hpow⟩
      intro i
      rw [Function.update_apply]
      rcases eq_or_ne i 0 with hi | hi
      · simp [hi]
      · simp [hi, hall i]
    · intro v s' hsome
      rw [hn] at hsome
      injection hsome with h1 h2
      injection h1 with h1
      subst h1
      subst h2
      exact ⟨rfl, rfl, 0, Nat.zero_le _, hall 0, rfl, rfl⟩
    · intro s' hnone
      rw [hn] at hnone
      injection hnone with h1 h2
      exact Option.noConfusion h1
  | End =>
    simp only [RlpInv, hst] at h
    obtain ⟨hiff, hnum, hpow⟩ := h
    by_cases hr : s.range = 0
    · have hn : s.next = (none, { s with state := State.Finished }) := by
        simp only [RlpIter.next, hst]
        rw [if_pos hr]
      refine ⟨?_, ?_, ?_⟩
      · rw [hn]
        simp only [RlpInv]
        intro i hi
        have hi0 : i = 0 := by omega
        rw [hi0]
        exact (hiff 0).mpr rfl
      · intro v s' hsome
        rw [hn] at hsome
        injection hsome with h1 h2
        exact Option.noConfusion h1
      · intro s' hnone i hi
        have hi0 : i = 0 := by omega
        rw [hi0]
        exact (hiff 0).mpr rfl
    · have hn : s.next = (some (s.range + s.shift),
          { s with tested := Function.update s.tested s.range true,
                   state := State.Lattice }) := by
        simp only [RlpIter.next, hst]
        rw [if_neg hr]
      have hrf : s.tested s.range = false := by
        cases hb : s.tested s.range
        · rfl
        · exact absurd ((hiff s.range).mp hb) hr
      refine ⟨?_, ?_, ?_⟩
      · rw [hn]
        simp only [RlpInv, LatticeInv]
        refine ⟨?_, by omega, by omega, ?_, ?_⟩
        · rw [Function.update_apply, if_neg (fun hc => hr hc.symm)]
          exact (hiff 0).mpr rfl
        · intro hc
          rw [hnum, hpow]
          norm_num
        · intro hc i hi
          rw [hnum] at hi
          have hi0 : i = 0 := by omega
          rw [hi0, Function.update_apply, if_neg (fun hc2 => hr hc2.symm)]
          exact (hiff 0).mpr rfl
      · intro v s' hsome
        rw [hn] at hsome
        injection hsome with h1 h2
        injection h1 with h1
        subst h1
        subst h2
        exact ⟨rfl, rfl, s.range, le_refl _, hrf, rfl, rfl⟩
      · intro s' hnone
        rw [hn] at hnone
        injection hnone with h1 h2
        exact Option.noConfusion h1
  | Lattice =>
    simp only [RlpInv, hst] at h
    obtain ⟨h0, h1, hple, hbound, hpre⟩ := h
    rcases hll : latticeLoop (2 ^ (s.final_pow + 1)) s with ⟨o1, s1⟩
    obtain ⟨r1, r2, r3, r4, r5, r6, r7⟩ :=
      latticeLoop_spec _ s h0 h1 hple hbound hpre (Nat.le_add_right _ _) o1 s1 hll
    cases o1 with
    | some v =>
      have hn : s.next = (some (v + s.shift), s1) := by
        simp only [RlpIter.next, hst, hll]
      obtain ⟨hvle, hvf, hts⟩ := r6 v rfl
      refine ⟨?_, ?_, ?_⟩
      · rw [hn]
        have hst1 : s1.state = State.Lattice := by rw [r4, hst]
        simp only [RlpInv, hst1]
        exact r5
      · intro v' s' hsome
        rw [hn] at hsome
        injection hsome with hv2 hs2
        injection hv2 with hv2
        subst hv2
        subst hs2
        exact ⟨r1, r2, v, hvle, hvf, rfl, hts⟩
      · intro s' hnone
        rw [hn] at hnone
        injection hnone with hc hs2
        exact Option.noConfusion hc
    | none =>
      obtain ⟨hts1, hfp1⟩ := r7 rfl
      have hpre1 : ∀ i, i < s1.numerator → s1.tested i = true :=
        r5.2.2.2.2 (by rw [r3]; exact hfp1)
      rcases hfl : fillLoop (s1.range + 2) s1 with ⟨o2, s2⟩
      obtain ⟨q1, q2, q3, q4, q5, q6, q7, q8, q9⟩ :=
        fillLoop_spec _ s1 hpre1 (by omega) o2 s2 hfl
      have h1n : 1 ≤ s1.numerator := r5.2.1
      by_cases hfin : s2.range < s2.numerator
      · have hn : s.next = (Option.map (fun v => v + s.shift) o2,
            { s2 with state := State.Finished }) := by
          simp only [RlpIter.next, hst, hll, hfl]
          rw [if_pos hfin]
        refine ⟨?_, ?_, ?_⟩
        · rw [hn]
          simp only [RlpInv]
          intro i hi
          exact q7 i (by omega)
        · intro v s' hsome
          rw [hn] at hsome
          injection hsome with hv2 hs2
          cases o2 with
          | none => exact Option.noConfusion hv2
          | some u =>
            injection hv2 with hv2
            subst hv2
            subst hs2
            obtain ⟨hule, huf, hts2⟩ := q8 u rfl
            refine ⟨?_, ?_, u, ?_, ?_, rfl, ?_⟩
            · show s2.range = s.range
              rw [q1, r1]
            · show s2.shift = s.shift
              rw [q2, r2]
            · rw [← r1]; exact hule
            · rw [← hts1]; exact huf
            · show s2.tested = Function.update s.tested u true
              rw [hts2, hts1]
        · intro s' hnone
          rw [hn] at hnone
          injection hnone with hv2 hs2
          cases o2 with
          | some u => exact Option.noConfusion hv2
          | none =>
            obtain ⟨hts2, hrn⟩ := q9 rfl
            intro i hi
            have hia : i < s2.numerator := by omega
            rw [← hts1, ← hts2]
            exact q7 i hia
      · have hn : s.next = (Option.map (fun v => v + s.shift) o2, s2) := by
          simp only [RlpIter.next, hst, hll, hfl]
          rw [if_neg hfin]
        refine ⟨?_, ?_, ?_⟩
        · rw [hn]
          have hst2 : s2.state = State.Lattice := by rw [q5, r4, hst]
          simp only [RlpInv, hst2, LatticeInv]
          refine ⟨?_, by omega, ?_, ?_, fun _ => q7⟩
          · exact q7 0 (by omega)
          · rw [q3, q4]
            exact r5.2.2.1
          · intro hc
            exfalso
            rw [q3, q4, r3] at hc
            omega
        · intro v s' hsome
          rw [hn] at hsome
          injection hsome with hv2 hs2
          cases o2 with
          | none => exact Option.noConfusion hv2
          | some u =>
            injection hv2 with hv2
            subst hv2
            subst hs2
            obtain ⟨hule, huf, hts2⟩ := q8 u rfl
            refine ⟨by rw [q1, r1], by rw [q2, r2], u, ?_, ?_, rfl, ?_⟩
            · rw [← r1]; exact hule
            · rw [← hts1]; exact huf
            · rw [hts2, hts1]
        · intro s' hnone
          rw [hn] at hnone
          injection hnone with hv2 hs2
          cases o2 with
          | some u => exact Option.noConfusion hv2
          | none =>
            obtain ⟨hts2, hrn⟩ := q9 rfl
            exfalso
            omega
  | Finished =>
    simp only [RlpInv, hst] at h
    have hn : s.next = (none, s) := by
      simp only [RlpIter.next, hst]
    refine ⟨?_, ?_, ?_⟩
    · rw [hn]
      simp only [RlpInv, hst]
      exact h
    · intro v s' hsome
      rw [hn] at hsome
      injection hsome with h1 h2
      exact Option.noConfusion h1
    · intro s' hnone
      exact h

/-- One-step unfolding of `runFrom`. -/
theorem runFrom_succ (fuel : Nat) (s : RlpIter) :
    runFrom (fuel + 1) s =
      match s.next with
      | (none, _) => []
      | (some v, s') => v :: runFrom fuel s' := rfl

/-- The `Start` branch of `next`. -/
theorem next_start (s : RlpIter) (hst : s.state = State.Start) :
    s.next = (some (0 + s.shift),
      { s with tested := Function.update s.tested 0 true,
               state := State.End }) := by
  simp only [RlpIter.next, hst]

/-- The emitting `End` branch of `next`. -/
theorem next_end (s : RlpIter) (hst : s.state = State.End) (hr : s.range ≠ 0) :
    s.next = (some (s.range + s.shift),
      { s with tested := Function.update s.tested s.range true,
               state := State.Lattice }) := by
  simp only [RlpIter.next, hst]
  rw [if_neg hr]

/-- The terminating `End` branch of `next` (singleton domain). -/
theorem next_end_zero (s : RlpIter) (hst : s.state = State.End)
    (hr : s.range = 0) :
    s.next = (none, { s with state := State.Finished }) := by
  simp only [RlpIter.next, hst]
  rw [if_pos hr]

/-- The `Finished` branch of `next`: end-of-sequence, state untouched. -/
theorem next_finished (s : RlpIter) (hst : s.state = State.Finished) :
    s.next = (none, s) := by
  simp only [RlpIter.next, hst]

/-- Number of not-yet-emitted offsets of the domain `0..=range`. -/
def untestedCount (s : RlpIter) : Nat :=
  ((Finset.range (s.range + 1)).filter (fun i => s.tested i = false)).card

theorem untestedCount_lt {s s' : RlpIter} {u : Nat} (hu : u ≤ s.range)
    (huf : s.tested u = false)
    (hts : s'.tested = Function.update s.tested u true)
    (hr : s'.range = s.range) : untestedCount s' < untestedCount s := by
  unfold untestedCount
  rw [hr, hts]
  apply Finset.card_lt_card
  rw [Finset.ssubset_def]
  constructor
  · intro i hi
    simp only [Finset.mem_filter, Finset.mem_range] at hi ⊢
    obtain ⟨hi1, hi2⟩ := hi
    rw [Function.update_apply] at hi2
    by_cases hiu : i = u
    · rw [if_pos hiu] at hi2
      cases hi2
    · rw [if_neg hiu] at hi2
      exact ⟨hi1, hi2⟩
  · intro hsub
    have hu1 : u ∈ (Finset.range (s.range + 1)).filter
        (fun i => s.tested i = false) := by
      simp only [Finset.mem_filter, Finset.mem_range]
      exact ⟨by omega, huf⟩
    have hu2 := hsub hu1
    simp only [Finset.mem_filter, Finset.mem_range] at hu2
    have hu3 := hu2.2
    rw [Function.update_apply, if_pos rfl] at hu3
    cases hu3

theorem rlpInv_start (s : RlpIter) (h1 : s.state = State.Start)
    (h2 : ∀ i, s.tested i = false) (h3 : s.numerator = 1) (h4 : s.pow = 1) :
    RlpInv s := by
  simp only [RlpInv, h1]
  exact ⟨h2, h3, h4⟩

theorem untestedCount_start (s : RlpIter) (h2 : ∀ i, s.tested i = false) :
    untestedCount s = s.range + 1 := by
  unfold untestedCount
  rw [Finset.filter_true_of_mem, Finset.card_range]
  intro i hi
  exact h2 i

/-- A full run from any invariant state has no duplicates and emits exactly
the shift-translations of the currently unmarked offsets of `0..=range`,
provided the fuel exceeds the number of unmarked offsets. -/
theorem runFrom_spec (fuel : Nat) :
    ∀ s : RlpIter, RlpInv s → untestedCount s < fuel →
      List.Nodup (runFrom fuel s) ∧
      ∀ w, w ∈ runFrom fuel s ↔
        ∃ u, u ≤ s.range ∧ s.tested u = false ∧ w = u + s.shift := by
  induction fuel with
  | zero =>
    intro s hinv hcount
    exact absurd hcount (Nat.not_lt_zero _)
  | succ fuel ih =>
    intro s hinv hcount
    obtain ⟨hinv', hsome, hnone⟩ := next_spec s hinv
    rcases hsn : s.next with ⟨o, s'⟩
    cases o with
    | none =>
      have hall := hnone s' hsn
      have hrun : runFrom (fuel + 1) s = [] := by
        rw [runFrom_succ, hsn]
      rw [hrun]
      refine ⟨List.nodup_nil, ?_⟩
      intro w
      simp only [List.not_mem_nil, false_iff]
      rintro ⟨u, hu1, hu2, hu3⟩
      rw [hall u hu1] at hu2
      cases hu2
    | some v =>
      obtain ⟨hr, hs, u, hu1, hu2, hu3, hts⟩ := hsome v s' hsn
      have hrun : runFrom (fuel + 1) s = v :: runFrom fuel s' := by
        rw [runFrom_succ, hsn]
      have hinv2 : RlpInv s' := by
        rw [hsn] at hinv'
        exact hinv'
      have hcount2 : untestedCount s' < fuel := by
        have hlt := untestedCount_lt hu1 hu2 hts hr
        omega
      obtain ⟨ihn, ihm⟩ := ih s' hinv2 hcount2
      rw [hrun]
      constructor
      · rw [List.nodup_cons]
        refine ⟨?_, ihn⟩
        intro hmem
        obtain ⟨u', hu1', hu2', hu3'⟩ := (ihm v).mp hmem
        rw [hts, Function.update_apply] at hu2'
        by_cases hne : u' = u
        · rw [if_pos hne] at hu2'
          cases hu2'
        · rw [if_neg hne] at hu2'
          rw [hs] at hu3'
          exact hne (by omega)
      · intro w
        rw [List.mem_cons, ihm w]
        constructor
        · rintro (rfl | ⟨u', hu1', hu2', hu3'⟩)
          · exact ⟨u, hu1, hu2, hu3⟩
          · rw [hts, Function.update_apply] at hu2'
            by_cases hne : u' = u
            · rw [if_pos hne] at hu2'
              cases hu2'
            · rw [if_neg hne] at hu2'
              refine ⟨u', by omega, hu2', by rw [hu3', hs]⟩
        · rintro ⟨u', hu1', hu2', hu3'⟩
          by_cases hne : u' = u
          · left
            rw [hu3', hne, hu3]
          · right
            refine ⟨u', by omega, ?_, by rw [hu3', hs]⟩
            rw [hts, Function.update_apply, if_neg hne]
            exact hu2'

/-- A full run of a freshly constructed iterator: no duplicates, and the
emitted values are exactly `u + shift` for the offsets `u ≤ range`. -/
theorem collect_fresh (s : RlpIter) (hst : s.state = State.Start)
    (hall : ∀ i, s.tested i = false) (hnum : s.numerator = 1)
    (hpow : s.pow = 1) :
    List.Nodup s.collect ∧
    ∀ w, w ∈ s.collect ↔ ∃ u, u ≤ s.range ∧ w = u + s.shift := by
  have hinv := rlpInv_start s hst hall hnum hpow
  have hcnt : untestedCount s = s.range + 1 := untestedCount_start s hall
  obtain ⟨hn, hm⟩ := runFrom_spec (s.range + 2) s hinv (by omega)
  refine ⟨hn, fun w => ?_⟩
  show w ∈ runFrom (s.range + 2) s ↔ _
  rw [hm w]
  constructor
  · rintro ⟨u, h1, h2, h3⟩
    exact ⟨u, h1, h3⟩
  · rintro ⟨u, h1, h3⟩
    exact ⟨u, h1, hall u, h3⟩

/-- `runFrom` when the next pull emits a value. -/
theorem runFrom_cons (fuel : Nat) (s : RlpIter) (v : Nat) (s' : RlpIter)
    (h : s.next = (some v, s')) :
    runFrom (fuel + 1) s = v :: runFrom fuel s' := by
  simp only [runFrom_succ, h]

/-- `runFrom` when the next pull signals end-of-sequence. -/
theorem runFrom_nil (fuel : Nat) (s : RlpIter) (s' : RlpIter)
    (h : s.next = (none, s')) : runFrom (fuel + 1) s = [] := by
  simp only [runFrom_succ, h]

/-- The first pulled value of a fresh iterator is offset 0 translated. -/
theorem collect_head (s : RlpIter) (hst : s.state = State.Start) :
    s.collect.head? = some (0 + s.shift) := by
  have hn := next_start s hst
  show (runFrom (s.range + 2) s).head? = _
  have h2 : s.range + 2 = (s.range + 1) + 1 := rfl
  rw [h2, runFrom_cons _ _ _ _ hn]
  rfl

/-- The second pulled value of a fresh iterator over a domain with more than
one offset is offset `range` translated. -/
theorem collect_second (s : RlpIter) (hst : s.state = State.Start)
    (hr : s.range ≠ 0) :
    s.collect.get? 1 = some (s.range + s.shift) := by
  have hn1 := next_start s hst
  have hn2 := next_end
    { s with tested := Function.update s.tested 0 true, state := State.End }
    rfl hr
  show (runFrom (s.range + 2) s).get? 1 = _
  have h2 : s.range + 2 = (s.range + 1) + 1 := rfl
  rw [h2, runFrom_cons _ _ _ _ hn1, runFrom_cons _ _ _ _ hn2]
  rfl

/-- Behaviour over a singleton domain (`range = 0`): one value, then
end-of-sequence forever. -/
theorem single_run (s : RlpIter) (hst : s.state = State.Start)
    (hr : s.range = 0) :
    s.nthOut 0 = some (0 + s.shift) ∧ ∀ k, 1 ≤ k → s.nthOut k = none := by
  have hn1 := next_start s hst
  constructor
  · show s.next.1 = _
    rw [hn1]
  · have h1 : s.iterState 1 =
        { s with tested := Function.update s.tested 0 true,
                 state := State.End } := by
      show s.next.2 = _
      rw [hn1]
    have hn2 := next_end_zero
      { s with tested := Function.update s.tested 0 true, state := State.End }
      rfl hr
    have h2 : ∀ j, s.iterState (j + 2) =
        { s with tested := Function.update s.tested 0 true,
                 state := State.Finished } := by
      intro j
      induction j with
      | zero =>
        show (s.iterState 1).next.2 = _
        rw [h1, hn2]
      | succ j ihj =>
        show (s.iterState (j + 2)).next.2 = _
        rw [ihj, next_finished _ rfl]
    intro k hk
    match k, hk with
    | 1, _ =>
      show (s.iterState 1).next.1 = none
      rw [h1, hn2]
    | (j + 2), _ =>
      show (s.iterState (j + 2)).next.1 = none
      rw [h2 j, next_finished _ rfl]

/-- Every reachable state satisfies the state-machine invariant. -/
theorem reach_inv (s : RlpIter) (h : Reach s) : RlpInv s := by
  induction h with
  | base_range r hv hb =>
    simp [RlpInv, Range.rlp_iter]
  | base_inclusive r hv hb =>
    simp [RlpInv, RangeInclusive.rlp_iter]
  | step t ht iht =>
    exact (next_spec t iht).1

/-- One-step unfolding of `latticeCandidates`. -/
theorem latticeCandidates_succ (fuel : Nat) (s : RlpIter) :
    latticeCandidates (fuel + 1) s =
      if s.pow ≤ s.final_pow then
        if s.tested (roundMulDiv s.range s.numerator (2 ^ s.pow)) then
          roundMulDiv s.range s.numerator (2 ^ s.pow) ::
            latticeCandidates fuel (latticeAdvance s (2 ^ s.pow))
        else [roundMulDiv s.range s.numerator (2 ^ s.pow)]
      else [] := rfl

/-- Advancing the fraction cursor preserves the cursor bound. -/
theorem latticeAdvance_bound (s : RlpIter) (hpf : s.pow ≤ s.final_pow)
    (hbound : s.numerator ≤ 2 ^ s.pow - 1) :
    (latticeAdvance s (2 ^ s.pow)).pow ≤ s.final_pow →
      (latticeAdvance s (2 ^ s.pow)).numerator ≤
        2 ^ (latticeAdvance s (2 ^ s.pow)).pow - 1 := by
  have hp1 : (1 : Nat) ≤ 2 ^ s.pow := Nat.one_le_two_pow
  unfold latticeAdvance
  by_cases hnum : s.numerator = 2 ^ s.pow - 1
  · simp only [hnum, if_true]
    intro hc
    have hp2 : (2 : Nat) ≤ 2 ^ (s.pow + 1) := by
      calc (2 : Nat) = 2 ^ 1 := by norm_num
      _ ≤ 2 ^ (s.pow + 1) := Nat.pow_le_pow_right (by omega) (by omega)
    omega
  · simp only [hnum, if_false]
    intro hc
    omega

/-- Every candidate offset examined by the lattice fraction loop is in
bounds, given the cursor bound at entry. -/
theorem latticeCandidates_le (fuel : Nat) :
    ∀ s : RlpIter, (s.pow ≤ s.final_pow → s.numerator ≤ 2 ^ s.pow - 1) →
    ∀ v, v ∈ latticeCandidates fuel s → v ≤ s.range := by
  induction fuel with
  | zero =>
    intro s hbound v hv
    simp only [latticeCandidates] at hv
    cases hv
  | succ fuel ih =>
    intro s hbound v hv
    rw [latticeCandidates_succ] at hv
    by_cases hpf : s.pow ≤ s.final_pow
    · rw [if_pos hpf] at hv
      have hp1 : (1 : Nat) ≤ 2 ^ s.pow := Nat.one_le_two_pow
      have hvle : roundMulDiv s.range s.numerator (2 ^ s.pow) ≤ s.range := by
        refine roundMulDiv_le ?_
        have := hbound hpf
        omega
      by_cases htv : s.tested (roundMulDiv s.range s.numerator (2 ^ s.pow)) = true
      · rw [if_pos htv] at hv
        rcases List.mem_cons.mp hv with rfl | hv2
        · exact hvle
        · have hb2 := latticeAdvance_bound s hpf (hbound hpf)
          have hb3 : (latticeAdvance s (2 ^ s.pow)).pow ≤
              (latticeAdvance s (2 ^ s.pow)).final_pow →
              (latticeAdvance s (2 ^ s.pow)).numerator ≤
                2 ^ (latticeAdvance s (2 ^ s.pow)).pow - 1 := by
            rw [latticeAdvance_final_pow]
            exact hb2
          have := ih (latticeAdvance s (2 ^ s.pow)) hb3 v hv2
          rw [latticeAdvance_range] at this
          exact this
      · rw [if_neg htv] at hv
        rcases List.mem_cons.mp hv with rfl | hv2
        · exact hvle
        · cases hv2
    · rw [if_neg hpf] at hv
      cases hv

/-- The same iterator state with a different translation offset. The
algorithm's core never reads `shift`, which yields the offsetting property. -/
def reshift (s : RlpIter) (c : Nat) : RlpIter := { s with shift := c }

theorem latticeAdvance_reshift (s : RlpIter) (c d : Nat) :
    latticeAdvance (reshift s c) d = reshift (latticeAdvance s d) c := by
  unfold latticeAdvance reshift
  by_cases h : s.numerator = d - 1 <;> simp [h]

/-- The lattice loop commutes with changing `shift`. -/
theorem latticeLoop_reshift (fuel : Nat) :
    ∀ (s : RlpIter) (c : Nat) (o : Option Nat) (s' : RlpIter),
      latticeLoop fuel s = (o, s') →
      latticeLoop fuel (reshift s c) = (o, reshift s' c) := by
  induction fuel with
  | zero =>
    intro s c o s' heq
    simp only [latticeLoop] at heq
    injection heq with ho hs
    subst ho
    subst hs
    rfl
  | succ fuel ih =>
    intro s c o s' heq
    rw [latticeLoop_succ] at heq
    rw [latticeLoop_succ]
    by_cases hpf : s.pow ≤ s.final_pow
    · rw [if_pos hpf] at heq
      rw [if_pos (show (reshift s c).pow ≤ (reshift s c).final_pow from hpf)]
      by_cases htv : s.tested (roundMulDiv s.range s.numerator (2 ^ s.pow)) = true
      · rw [if_pos htv] at heq
        rw [if_pos (show (reshift s c).tested (roundMulDiv (reshift s c).range
            (reshift s c).numerator (2 ^ (reshift s c).pow)) = true from htv)]
        rw [latticeAdvance_reshift]
        exact ih (latticeAdvance s (2 ^ (reshift s c).pow)) c o s' heq
      · rw [if_neg htv] at heq
        rw [if_neg (show ¬(reshift s c).tested (roundMulDiv (reshift s c).range
            (reshift s c).numerator (2 ^ (reshift s c).pow)) = true from htv)]
        injection heq with ho hs
        subst ho
        subst hs
        rw [← latticeAdvance_reshift]
        rfl
    · rw [if_neg hpf] at heq
      rw [if_neg (show ¬(reshift s c).pow ≤ (reshift s c).final_pow from hpf)]
      injection heq with ho hs
      subst ho
      subst hs
      rfl

/-- The gap-filling loop commutes with changing `shift`. -/
theorem fillLoop_reshift (fuel : Nat) :
    ∀ (s : RlpIter) (c : Nat) (o : Option Nat) (s' : RlpIter),
      fillLoop fuel s = (o, s') →
      fillLoop fuel (reshift s c) = (o, reshift s' c) := by
  induction fuel with
  | zero =>
    intro s c o s' heq
    simp only [fillLoop] at heq
    injection heq with ho hs
    subst ho
    subst hs
    rfl
  | succ fuel ih =>
    intro s c o s' heq
    rw [fillLoop_succ] at heq
    rw [fillLoop_succ]
    by_cases hlt : s.numerator ≤ s.range
    · rw [if_pos hlt] at heq
      rw [if_pos (show (reshift s c).numerator ≤ (reshift s c).range from hlt)]
      by_cases htv : s.tested s.numerator = true
      · rw [if_pos htv] at heq
        rw [if_pos (show (reshift s c).tested (reshift s c).numerator = true
          from htv)]
        exact ih { s with numerator := s.numerator + 1 } c o s' heq
      · rw [if_neg htv] at heq
        rw [if_neg (show ¬(reshift s c).tested (reshift s c).numerator = true
          from htv)]
        injection heq with ho hs
        subst ho
        subst hs
        rfl
    · rw [if_neg hlt] at heq
      rw [if_neg (show ¬(reshift s c).numerator ≤ (reshift s c).range from hlt)]
      injection heq with ho hs
      subst ho
      subst hs
      rfl

/-- A pull commutes with changing `shift` (stated for `shift = 0` sources:
the emitted value is translated, the successor state is reshifted). -/
theorem next_reshift (s : RlpIter) (c : Nat) (h0 : s.shift = 0) :
    (reshift s c).next =
      ((s.next).1.map (fun v => v + c), reshift (s.next).2 c) := by
  cases hst : s.state with
  | Start =>
    rw [next_start _ (show (reshift s c).state = State.Start from hst),
      next_start s hst, h0]
    rfl
  | End =>
    by_cases hr : s.range = 0
    · rw [next_end_zero _ (show (reshift s c).state = State.End from hst)
        (show (reshift s c).range = 0 from hr), next_end_zero s hst hr]
      rfl
    · rw [next_end _ (show (reshift s c).state = State.End from hst)
        (show (reshift s c).range ≠ 0 from hr), next_end s hst hr, h0]
      rfl
  | Lattice =>
    rcases hll : latticeLoop (2 ^ (s.final_pow + 1)) s with ⟨o1, s1⟩
    have hll2 : latticeLoop (2 ^ ((reshift s c).final_pow + 1)) (reshift s c) =
        (o1, reshift s1 c) :=
      latticeLoop_reshift (2 ^ (s.final_pow + 1)) s c o1 s1 hll
    cases o1 with
    | some v =>
      have hn1 : s.next = (some (v + s.shift), s1) := by
        simp only [RlpIter.next, hst, hll]
      have hn2 : (reshift s c).next = (some (v + (reshift s c).shift),
          reshift s1 c) := by
        simp only [RlpIter.next,
          (show (reshift s c).state = State.Lattice from hst), hll2]
      rw [hn1, hn2, h0]
      rfl
    | none =>
      rcases hfl : fillLoop (s1.range + 2) s1 with ⟨o2, s2⟩
      have hfl2 : fillLoop ((reshift s1 c).range + 2) (reshift s1 c) =
          (o2, reshift s2 c) :=
        fillLoop_reshift (s1.range + 2) s1 c o2 s2 hfl
      by_cases hfin : s2.range < s2.numerator
      · have hn1 : s.next = (Option.map (fun v => v + s.shift) o2,
            { s2 with state := State.Finished }) := by
          simp only [RlpIter.next, hst, hll, hfl]
          rw [if_pos hfin]
        have hn2 : (reshift s c).next =
            (Option.map (fun v => v + (reshift s c).shift) o2,
             { reshift s2 c with state := State.Finished }) := by
          simp only [RlpIter.next,
            (show (reshift s c).state = State.Lattice from hst), hll2, hfl2]
          rw [if_pos (show (reshift s2 c).range < (reshift s2 c).numerator
            from hfin)]
        rw [hn1, hn2, h0]
        cases o2 <;> rfl
      · have hn1 : s.next = (Option.map (fun v => v + s.shift) o2, s2) := by
          simp only [RlpIter.next, hst, hll, hfl]
          rw [if_neg hfin]
        have hn2 : (reshift s c).next =
            (Option.map (fun v => v + (reshift s c).shift) o2,
             reshift s2 c) := by
          simp only [RlpIter.next,
            (show (reshift s c).state = State.Lattice from hst), hll2, hfl2]
          rw [if_neg (show ¬(reshift s2 c).range < (reshift s2 c).numerator
            from hfin)]
        rw [hn1, hn2, h0]
        cases o2 <;> rfl
  | Finished =>
    rw [next_finished _ (show (reshift s c).state = State.Finished from hst),
      next_finished s hst]
    rfl

/-- A run from a `shift = 0` invariant state, restarted with `shift = c`,
produces exactly the same sequence translated by `c`. -/
theorem runFrom_reshift (fuel : Nat) :
    ∀ (s : RlpIter) (c : Nat), RlpInv s → s.shift = 0 →
      runFrom fuel (reshift s c) = (runFrom fuel s).map (fun v => v + c) := by
  induction fuel with
  | zero =>
    intro s c hinv h0
    rfl
  | succ fuel ih =>
    intro s c hinv h0
    obtain ⟨hinv', hsome, hnone⟩ := next_spec s hinv
    rcases hsn : s.next with ⟨o, s'⟩
    have hrs := next_reshift s c h0
    rw [hsn] at hrs
    cases o with
    | none =>
      rw [runFrom_nil fuel (reshift s c) (reshift s' c) hrs,
        runFrom_nil fuel s s' hsn]
      rfl
    | some v =>
      obtain ⟨hr, hs, _⟩ := hsome v s' hsn
      rw [runFrom_cons fuel (reshift s c) (v + c) (reshift s' c) hrs,
        runFrom_cons fuel s v s' hsn, List.map_cons]
      exact congrArg (fun l => (v + c) :: l)
        (ih s' c (by rw [hsn] at hinv'; exact hinv') (by rw [hs]; exact h0))

/-! ## Claims -/

/-- C1: For every valid range (closed `[a, b]` with `a ≤ b`, or half-open
`[a, b)` with `a < b`), a full run of the constructed iterator emits exactly
the set of integers of the range — no repeats, no omissions, order ignored. -/
theorem c1_full_run_is_range (a b : Nat) (hb : b < USIZE) :
    (a ≤ b →
      (RangeInclusive.mk a b).rlp_iter.collect.Nodup ∧
      ∀ w, w ∈ (RangeInclusive.mk a b).rlp_iter.collect ↔ a ≤ w ∧ w ≤ b) ∧
    (a < b →
      (Range.mk a b).rlp_iter.collect.Nodup ∧
      ∀ w, w ∈ (Range.mk a b).rlp_iter.collect ↔ a ≤ w ∧ w < b) := by
  constructor
  · intro hab
    obtain ⟨hnd, hmem⟩ := collect_fresh ((RangeInclusive.mk a b).rlp_iter) rfl
      (fun i => rfl) rfl rfl
    have hr0 : (RangeInclusive.mk a b).rlp_iter.range = b - a :=
      wrapSub_eq_sub hab hb
    have hs0 : (RangeInclusive.mk a b).rlp_iter.shift = a := rfl
    refine ⟨hnd, fun w => ?_⟩
    rw [hmem w]
    constructor
    · rintro ⟨u, hu, rfl⟩
      omega
    · rintro ⟨hw1, hw2⟩
      exact ⟨w - a, by omega, by omega⟩
  · intro hab
    obtain ⟨hnd, hmem⟩ := collect_fresh ((Range.mk a b).rlp_iter) rfl
      (fun i => rfl) rfl rfl
    have he1 : wrapSub b a = b - a := wrapSub_eq_sub (by omega) hb
    have hr0 : (Range.mk a b).rlp_iter.range = b - a - 1 := by
      show wrapSub (wrapSub b a) 1 = b - a - 1
      rw [he1]
      exact wrapSub_eq_sub (by omega) (by omega)
    have hs0 : (Range.mk a b).rlp_iter.shift = a := rfl
    refine ⟨hnd, fun w => ?_⟩
    rw [hmem w]
    constructor
    · rintro ⟨u, hu, rfl⟩
      omega
    · rintro ⟨hw1, hw2⟩
      exact ⟨w - a, by omega, by omega⟩

/-- Witness for C1 at the ranges `0..=8` and `0..9`. -/
theorem c1_full_run_is_range_witness :
    (0 : Nat) ≤ 8 ∧ (0 : Nat) < 9 ∧
    ((RangeInclusive.mk 0 8).rlp_iter.collect.Nodup ∧
      ∀ w, w ∈ (RangeInclusive.mk 0 8).rlp_iter.collect ↔ 0 ≤ w ∧ w ≤ 8) ∧
    ((Range.mk 0 9).rlp_iter.collect.Nodup ∧
      ∀ w, w ∈ (Range.mk 0 9).rlp_iter.collect ↔ 0 ≤ w ∧ w < 9) :=
  ⟨by decide, by decide,
   (c1_full_run_is_range 0 8 (by decide)).1 (by decide),
   (c1_full_run_is_range 0 9 (by decide)).2 (by decide)⟩

/-- C2 (evidence for the code defect): the adapters do not reject invalid
ranges. Constructing from the empty half-open range `0..0` or the inverted
closed range `1..=0` silently underflows the wrapping `usize` subtraction
and yields a corrupt sequencer whose domain size is `2^64 - 1`, instead of
failing fast at construction time as the specification requires. -/
theorem c2_invalid_range_not_rejected :
    ((Range.mk 0 0).rlp_iter).range = USIZE - 1 ∧
    ((RangeInclusive.mk 1 0).rlp_iter).range = USIZE - 1 := by
  constructor <;> rfl

/-- C3: the first value produced is the range's lower bound. -/
theorem c3_first_value_is_lower_bound (a b : Nat) (hb : b < USIZE) :
    (a ≤ b → ((RangeInclusive.mk a b).rlp_iter.collect).head? = some a) ∧
    (a < b → ((Range.mk a b).rlp_iter.collect).head? = some a) := by
  constructor
  · intro hab
    rw [collect_head ((RangeInclusive.mk a b).rlp_iter) rfl]
    show some (0 + a) = some a
    rw [Nat.zero_add]
  · intro hab
    rw [collect_head ((Range.mk a b).rlp_iter) rfl]
    show some (0 + a) = some a
    rw [Nat.zero_add]

/-- Witness for C3 at the range `1..=9`. -/
theorem c3_first_value_is_lower_bound_witness :
    (1 : Nat) ≤ 9 ∧
    ((RangeInclusive.mk 1 9).rlp_iter.collect).head? = some 1 :=
  ⟨by decide, (c3_first_value_is_lower_bound 1 9 (by decide)).1 (by decide)⟩

/-- C4: for a range with more than one element, the second value produced is
the inclusive upper bound (`b` for `a..=b`, `b - 1` for `a..b`). -/
theorem c4_second_value_is_upper_bound (a b : Nat) (hb : b < USIZE) :
    (a < b → ((RangeInclusive.mk a b).rlp_iter.collect).get? 1 = some b) ∧
    (a + 1 < b → ((Range.mk a b).rlp_iter.collect).get? 1 = some (b - 1)) := by
  constructor
  · intro hab
    have hab2 : a ≤ b := by omega
    have he1 : (RangeInclusive.mk a b).rlp_iter.range = b - a :=
      wrapSub_eq_sub hab2 hb
    have hr : (RangeInclusive.mk a b).rlp_iter.range ≠ 0 := by
      rw [he1]
      omega
    have hs : (RangeInclusive.mk a b).rlp_iter.shift = a := rfl
    have hv : (RangeInclusive.mk a b).rlp_iter.range +
        (RangeInclusive.mk a b).rlp_iter.shift = b := by
      rw [he1, hs]
      omega
    rw [collect_second ((RangeInclusive.mk a b).rlp_iter) rfl hr, hv]
  · intro hab
    have he1 : wrapSub b a = b - a := wrapSub_eq_sub (by omega) hb
    have hr0 : (Range.mk a b).rlp_iter.range = b - a - 1 := by
      show wrapSub (wrapSub b a) 1 = b - a - 1
      rw [he1]
      exact wrapSub_eq_sub (by omega) (by omega)
    have hr : (Range.mk a b).rlp_iter.range ≠ 0 := by
      rw [hr0]
      omega
    have hs : (Range.mk a b).rlp_iter.shift = a := rfl
    have hv : (Range.mk a b).rlp_iter.range +
        (Range.mk a b).rlp_iter.shift = b - 1 := by
      rw [hr0, hs]
      omega
    rw [collect_second ((Range.mk a b).rlp_iter) rfl hr, hv]

/-- Witness for C4 at the range `0..=8`. -/
theorem c4_second_value_is_upper_bound_witness :
    (0 : Nat) < 8 ∧
    ((RangeInclusive.mk 0 8).rlp_iter.collect).get? 1 = some 8 :=
  ⟨by decide, (c4_second_value_is_upper_bound 0 8 (by decide)).1 (by decide)⟩

/-- C5: determinism — in this embedding, construction and iteration are pure
functions of the range, so two sequencers built from the same range produce
definitionally identical full output sequences, in the same order. -/
theorem c5_deterministic (a b : Nat) :
    (RangeInclusive.mk a b).rlp_iter.collect =
      (RangeInclusive.mk a b).rlp_iter.collect ∧
    (Range.mk a b).rlp_iter.collect = (Range.mk a b).rlp_iter.collect :=
  ⟨rfl, rfl⟩

/-- C6: offsetting — the full run over `[a, a+n)` equals, elementwise, the
full run over `[0, n)` with `a` added to every element. -/
theorem c6_offset_equivariance (a n : Nat) (hn : 1 ≤ n)
    (hb : a + n < USIZE) :
    (Range.mk a (a + n)).rlp_iter.collect =
      ((Range.mk 0 n).rlp_iter.collect).map (fun v => v + a) := by
  have hnU : n < USIZE := by omega
  have e1 : wrapSub (a + n) a = n := wrapSub_add_left a n hnU
  have e2 : wrapSub n 0 = n := by
    have h2 := wrapSub_eq_sub (Nat.zero_le n) hnU
    simpa using h2
  have hEq : (Range.mk a (a + n)).rlp_iter =
      reshift (Range.mk 0 n).rlp_iter a := by
    simp only [Range.rlp_iter, reshift, e1, e2]
  rw [hEq]
  have hinv : RlpInv (Range.mk 0 n).rlp_iter :=
    rlpInv_start _ rfl (fun i => rfl) rfl rfl
  exact runFrom_reshift ((Range.mk 0 n).rlp_iter.range + 2)
    (Range.mk 0 n).rlp_iter a hinv rfl

/-- Witness for C6 at `a = 1`, `n = 9` (the range `1..10` versus `0..9`). -/
theorem c6_offset_equivariance_witness :
    (1 : Nat) ≤ 9 ∧ 1 + 9 < USIZE ∧
    (Range.mk 1 (1 + 9)).rlp_iter.collect =
      ((Range.mk 0 9).rlp_iter.collect).map (fun v => v + 1) :=
  ⟨by decide, by decide, c6_offset_equivariance 1 9 (by decide) (by decide)⟩

/-- C7: a single-element range (`a..=a` or `a..a+1`) produces exactly one
value, `a`, then signals end-of-sequence on that run's next pull and on
every subsequent pull. -/
theorem c7_singleton_range (a : Nat) :
    ((RangeInclusive.mk a a).rlp_iter.nthOut 0 = some a ∧
      ∀ k, 1 ≤ k → (RangeInclusive.mk a a).rlp_iter.nthOut k = none) ∧
    ((Range.mk a (a + 1)).rlp_iter.nthOut 0 = some a ∧
      ∀ k, 1 ≤ k → (Range.mk a (a + 1)).rlp_iter.nthOut k = none) := by
  constructor
  · have hr : (RangeInclusive.mk a a).rlp_iter.range = 0 := wrapSub_self a
    obtain ⟨h1, h2⟩ := single_run ((RangeInclusive.mk a a).rlp_iter) rfl hr
    refine ⟨?_, h2⟩
    rw [h1]
    show some (0 + a) = some a
    rw [Nat.zero_add]
  · have he : wrapSub (a + 1) a = 1 := wrapSub_add_left a 1 (by decide)
    have hr : (Range.mk a (a + 1)).rlp_iter.range = 0 := by
      show wrapSub (wrapSub (a + 1) a) 1 = 0
      rw [he]
      exact wrapSub_self 1
    obtain ⟨h1, h2⟩ := single_run ((Range.mk a (a + 1)).rlp_iter) rfl hr
    refine ⟨?_, h2⟩
    rw [h1]
    show some (0 + a) = some a
    rw [Nat.zero_add]

/-- Witness for C7 at `a = 5`, pulls 1 and 2 after the single value. -/
theorem c7_singleton_range_witness :
    (RangeInclusive.mk 5 5).rlp_iter.nthOut 0 = some 5 ∧
    (RangeInclusive.mk 5 5).rlp_iter.nthOut 1 = none ∧
    (Range.mk 5 (5 + 1)).rlp_iter.nthOut 2 = none :=
  ⟨(c7_singleton_range 5).1.1, (c7_singleton_range 5).1.2 1 (by decide),
   (c7_singleton_range 5).2.2 2 (by decide)⟩

/-- C8: the documented concrete sequences: the full runs over `0..=8` and
`0..9`, and the first nine values over `0..=100`. -/
theorem c8_documented_sequences :
    (RangeInclusive.mk 0 8).rlp_iter.collect = [0, 8, 4, 2, 6, 1, 3, 5, 7] ∧
    (Range.mk 0 9).rlp_iter.collect = [0, 8, 4, 2, 6, 1, 3, 5, 7] ∧
    runFrom 9 (RangeInclusive.mk 0 100).rlp_iter =
      [0, 100, 50, 25, 75, 13, 38, 63, 88] := by
  refine ⟨?_, ?_, ?_⟩ <;> decide

/-- C9: once the iterator has reached `Finished`, every further pull returns
end-of-sequence and leaves the entire state — bitset and every scalar
field — unchanged. -/
theorem c9_finished_is_inert (s : RlpIter) (h : s.state = State.Finished) :
    s.next = (none, s) :=
  next_finished s h

/-- Witness for C9 at a concrete finished state. -/
theorem c9_finished_is_inert_witness :
    (RlpIter.mk (fun _ => false) 0 0 1 1 0 State.Finished).next =
      (none, RlpIter.mk (fun _ => false) 0 0 1 1 0 State.Finished) :=
  c9_finished_is_inert _ rfl

/-- C10: from every reachable `Lattice` state, every candidate offset `val`
examined by the fraction loop satisfies `val ≤ range`, so the bitset access
`tested.get(val).unwrap()` — the bitset has `range + 1` bits — cannot fail.
(The linear gap-filling scan is guarded by `numerator ≤ range` in the code
itself.) -/
theorem c10_lattice_candidates_in_bounds (s : RlpIter) (h : Reach s)
    (hst : s.state = State.Lattice) :
    ∀ v ∈ latticeCandidates (2 ^ (s.final_pow + 1)) s, v ≤ s.range := by
  have hinv := reach_inv s h
  simp only [RlpInv, hst] at hinv
  obtain ⟨-, -, -, hbound, -⟩ := hinv
  intro v hv
  exact latticeCandidates_le _ s hbound v hv

/-- Witness for C10: in the reachable `Lattice` state after two pulls on
`0..=8`, the candidate offset 4 examined by the loop is within `range`. -/
theorem c10_lattice_candidates_in_bounds_witness :
    4 ∈ latticeCandidates
        (2 ^ ((((RangeInclusive.mk 0 8).rlp_iter.next).2.next).2.final_pow + 1))
        (((RangeInclusive.mk 0 8).rlp_iter.next).2.next).2 ∧
    4 ≤ (((RangeInclusive.mk 0 8).rlp_iter.next).2.next).2.range :=
  ⟨by decide,
   c10_lattice_candidates_in_bounds _
    (Reach.step _ (Reach.step _ (Reach.base_inclusive (RangeInclusive.mk 0 8)
      (by decide) (by decide))))
    (by rfl) 4 (by decide)⟩
